import Mathlib

/-
Verification of the Mini POSIX Shell (shell.c / shell.h) against its
natural-language specification.  The embedding models:

* `create_args` — the two-pass tokenizer of shell.c, rendered over an array
  of characters with explicit buffer indices, including its in-place
  truncation of the line buffer;
* the input-thread dispatch of `input_start` over the parse result;
* `change_cwd` and the cd branch of `input_start`;
* the background-job registry of shell.h (`jobs_insert`,
  `jobs_find_remove`, `jobs_print`);
* `print_status`, the foreground branch of `execute_file`, and the SIGCHLD
  branch of `sig_handler`;
* the handoff monitor (`exec_args`, `mtx`, `cond`) between the input and
  exec threads, as an interleaving transition system.
-/

namespace Shell

/-- Maximum length of one input line, MAXLEN of shell.h. -/
def MAXLEN : Nat := 513

/-- Maximum length of one argument, MAXARG of shell.h. -/
def MAXARG : Nat := 256

/-- NUL byte, the C string terminator. -/
def NUL : Char := Char.ofNat 0

/-- Whitespace test of shell.c (`is_space`): blank or horizontal tab. -/
def is_space (c : Char) : Bool := c == ' ' || c == '\t'

/-- Reads byte i of the line buffer.  The line occupies the positions below
the array size, and every position from the size onward reads as the NUL
terminator, as in the C character array holding the NUL-terminated line. -/
def rd (b : Array Char) (i : Nat) : Char := b.getD i NUL

/-- Writes byte i of the line buffer.  A write at the terminator position
(index = size) leaves the buffer unchanged: that cell already reads as NUL. -/
def wr (b : Array Char) (i : Nat) (c : Char) : Array Char := b.setD i c

/-- The whitespace-skipping loop of create_args
(`while (is_space(*ptr)) \x7b ptr++; bptr = ptr; \x7d`): advances from
position p to the first position holding a non-whitespace byte.  The fuel
argument serves termination only; `skip_ws` supplies enough of it, since a
whitespace run is bounded by the array size. -/
def skip_ws_fuel (b : Array Char) : Nat → Nat → Nat
  | 0, p => p
  | fuel + 1, p => if is_space (rd b p) then skip_ws_fuel b fuel (p + 1) else p

/-- Position of the first non-whitespace byte at or after p. -/
def skip_ws (b : Array Char) (p : Nat) : Nat := skip_ws_fuel b b.size p

/-- The backward whitespace strip of create_args
(`x--; while (is_space(*x)) x--; x++;`), started here at position q where
the C starts one position later and first steps back.  Returns the position
one past the last non-whitespace byte at or below q, and 0 when all of them
are whitespace (there the C walks one byte before the buffer start). -/
def strip_end (b : Array Char) : Nat → Nat
  | 0 => if is_space (rd b 0) then 0 else 1
  | q + 1 => if is_space (rd b (q + 1)) then strip_end b q else q + 2

/-- Parse failures of create_args: the paths printing a message and
returning 1.  (The allocation-failure path returning -1 is not modelled.) -/
inductive ParseErr where
  | tooLong : ParseErr
  | noWsAfterOp : Char → ParseErr
deriving DecidableEq

/-- First pass of create_args (shell.c lines 132-199), one recursive call
per executed iteration of the C loop.  It counts the arguments (argsc),
detects and strips a backgrounding token (writing a NUL into the buffer),
and rejects an over-long token or a redirection operator followed by
whitespace.  ptr is the scan position, bptr the start of the current token,
i the number of bytes of the current token already passed.  Returns the
final buffer, ptr, bptr, i, argsc and run_bg.  The fuel serves termination
only; create_args supplies enough, the scan position growing by at least
one per call. -/
def pass1 : Nat → Array Char → Nat → Nat → Nat → Int → Bool →
    Except ParseErr (Array Char × Nat × Nat × Nat × Int × Bool)
  | 0, b, ptr, bptr, i, argsc, bg => .ok (b, ptr, bptr, i, argsc, bg)
  | fuel + 1, b, ptr, bptr, i, argsc, bg =>
    if rd b ptr = NUL then .ok (b, ptr, bptr, i, argsc, bg)
    else if is_space (rd b ptr) then
      if MAXARG ≤ i then .error .tooLong
      else if rd b bptr = '>' ∨ rd b bptr = '<' then
        if is_space (rd b (bptr + 1)) then .error (.noWsAfterOp (rd b bptr))
        else
          let p := skip_ws b ptr
          pass1 fuel b p p 0 argsc bg
      else if rd b bptr = '&' then
        let t := if bptr = 0 then 0 else strip_end b (bptr - 1)
        let b1 := wr b t NUL
        let p := skip_ws b1 ptr
        pass1 fuel b1 p p 0 (argsc - 1) true
      else
        let p := skip_ws b ptr
        pass1 fuel b p p 0 (argsc + 1) bg
    else pass1 fuel b (ptr + 1) bptr (i + 1) argsc bg

/-- The C string stored by copying n bytes of the buffer from position s
into a zeroed MAXARG cell and then placing a terminator (the memcpy
pattern of the second pass). -/
def ext (b : Array Char) (s n : Nat) : String :=
  String.mk ((List.range n).map fun k => rd b (s + k))

/-- Second pass of create_args (shell.c lines 220-252), scanning the buffer
as mutated by the first pass and filling the argument strings (acc) and the
redirection targets redir_t (rt) and redir_f (rf).  Returns the final bptr
and j together with the three results; the caller performs the last-token
step.  Fuel as for the first pass. -/
def pass2 : Nat → Array Char → Nat → Nat → Nat → List String → String → String →
    Nat × Nat × List String × String × String
  | 0, _, _, bptr, j, acc, rt, rf => (bptr, j, acc, rt, rf)
  | fuel + 1, b, ptr, bptr, j, acc, rt, rf =>
    if rd b ptr = NUL then (bptr, j, acc, rt, rf)
    else if is_space (rd b ptr) then
      let p := skip_ws b ptr
      if rd b bptr = '>' then pass2 fuel b p p 0 acc (ext b (bptr + 1) (j - 1)) rf
      else if rd b bptr = '<' then pass2 fuel b p p 0 acc rt (ext b (bptr + 1) (j - 1))
      else pass2 fuel b p p 0 (acc ++ [ext b bptr j]) rt rf
    else pass2 fuel b (ptr + 1) bptr (j + 1) acc rt rf

/-- The parse result: the argument vector for execvp (the strings stored
before the terminating NULL entry), the final argsc counter (which counts
the NULL entry), the redirection targets redir_t and redir_f, and run_bg. -/
structure Cmd where
  argv : List String
  argsc : Int
  redir_t : String
  redir_f : String
  run_bg : Bool
deriving DecidableEq

/-- Second pass plus the last-token step of create_args (shell.c lines
219-267): skips leading whitespace, runs the filling loop, then stores the
final token as a redirection target (leaving a NULL argument entry) or as
the last argument. -/
def fill_args (b : Array Char) (argsc : Int) (bg : Bool) : Cmd :=
  let start := skip_ws b 0
  let r := pass2 (b.size + 1) b start start 0 [] "" ""
  let bptr := r.1
  let j := r.2.1
  let acc := r.2.2.1
  let rt := r.2.2.2.1
  let rf := r.2.2.2.2
  if rd b bptr = '>' then ⟨acc, argsc, ext b (bptr + 1) (j - 1), rf, bg⟩
  else if rd b bptr = '<' then ⟨acc, argsc, rt, ext b (bptr + 1) (j - 1), bg⟩
  else ⟨acc ++ [ext b bptr j], argsc, rt, rf, bg⟩

/-- create_args of shell.c: processes one input line (the bytes before the
terminator) into a Cmd, or a parse error.  After the counting pass it
re-checks the last token's length, uncounts a last-token redirection
operator, strips a trailing backgrounding token (argsc > 1) or the trailing
whitespace, counts the NULL entry, and runs the filling pass. -/
def create_args (l : List Char) : Except ParseErr Cmd :=
  let b := l.toArray
  let start := skip_ws b 0
  match pass1 (b.size + 1) b start start 0 1 false with
  | .error e => .error e
  | .ok (b1, ptr, bptr, i, argsc, bg) =>
    if MAXARG ≤ i then .error .tooLong
    else
      let argsc1 := if 1 < argsc ∧ (rd b1 bptr = '>' ∨ rd b1 bptr = '<')
        then argsc - 1 else argsc
      if 1 < argsc1 ∧ rd b1 bptr = '&' then
        let t := if bptr = 0 then 0 else strip_end b1 (bptr - 1)
        let b2 := wr b1 t NUL
        .ok (fill_args b2 (argsc1 - 1 + 1) true)
      else
        let t := if ptr = 0 then 0 else strip_end b1 (ptr - 1)
        let b2 := wr b1 t NUL
        .ok (fill_args b2 (argsc1 + 1) bg)

/-- Outcome of one iteration of the input-thread loop (input_start,
shell.c lines 349-406) as a function of the parse result of the line:
report a parse error and continue; run one of the built-ins exit, jobs,
cd; treat an empty command (`strlen(args[0]) == 0`) as a no-op, redrawing
the prompt; otherwise hand the command to the exec thread.  When the
argument vector starts with a NULL entry the C dereferences it. -/
inductive LineAction where
  | parse_error
  | shell_exit
  | jobs_builtin
  | cd_builtin
  | no_op
  | execute_cmd
  | null_deref
deriving DecidableEq

/-- Dispatch of input_start on the parse result, in the source's test
order: exit, jobs, cd, then the empty-command test. -/
def input_dispatch : Except ParseErr Cmd → LineAction
  | .error _ => .parse_error
  | .ok c =>
    match c.argv with
    | [] => .null_deref
    | a0 :: _ =>
      if a0 = "exit" then .shell_exit
      else if a0 = "jobs" then .jobs_builtin
      else if a0 = "cd" then .cd_builtin
      else if a0.length = 0 then .no_op
      else .execute_cmd

/-- Result of the chdir call as change_cwd distinguishes it: success,
errno ENOENT or ENOTDIR, or any other failure. -/
inductive ChdirRes where
  | ok
  | no_ent
  | other_err
deriving DecidableEq

/-- change_cwd of shell.h: checks that the argument count (argsc minus the
NULL entry) is exactly 2, then attempts the directory change to args[1].
Returns the C return code, the message printed to stderr (none when
nothing is printed), and the resulting working directory given the
current one. -/
def change_cwd (c : Cmd) (r : ChdirRes) (cwd : String) :
    Int × Option String × String :=
  if c.argsc - 1 ≠ 2 then (1, some "cd: one argument required", cwd)
  else
    let target := c.argv.getD 1 ""
    match r with
    | .ok => (0, none, target)
    | .no_ent => (1, some ("cd: " ++ target ++ ": No such directory"), cwd)
    | .other_err => (-1, none, cwd)

/-- The cd branch of input_start (shell.c lines 375-388): a change_cwd
return value of -1 sets the exit flag and ends the input thread, so the
shell terminates; any other return value redraws the prompt and the loop
continues. -/
def cd_branch_terminates (ret : Int) : Bool := ret == -1

/-- jobs_insert of shell.h: pushes the record (pid, name) at the head of
the singly-linked job list. -/
def jobs_insert (l : List (Int × String)) (name : String) (pid : Int) :
    List (Int × String) :=
  (pid, name) :: l

/-- jobs_find_remove of shell.h: removes the first record carrying the
given pid, returning 1 (here true) exactly when one was found, together
with the resulting list. -/
def jobs_find_remove : List (Int × String) → Int → Bool × List (Int × String)
  | [], _ => (false, [])
  | (p, n) :: t, pid =>
    if p = pid then (true, t)
    else
      let r := jobs_find_remove t pid
      (r.1, (p, n) :: r.2)

/-- jobs_print of shell.h: the text printed for the jobs built-in, head of
the list first, one `[pid] name` line per record. -/
def jobs_print : List (Int × String) → String
  | [] => ""
  | (p, n) :: t => "[" ++ toString p ++ "] " ++ n ++ "\n" ++ jobs_print t

/-- Decoded waitpid status, the four cases the code distinguishes through
WIFEXITED, WIFSIGNALED and WIFSTOPPED. -/
inductive WStatus where
  | exited : Nat → WStatus
  | signaled : Nat → WStatus
  | stopped : Nat → WStatus
  | other : WStatus
deriving DecidableEq

/-- print_status of shell.c (lines 556-570): the status line printed for a
reaped background process. -/
def print_status (w : Int) (st : WStatus) : String :=
  match st with
  | .exited c =>
    if c ≠ 0 then "\n[" ++ toString w ++ "]+ Exit " ++ toString c ++ "\n"
    else "\n[" ++ toString w ++ "]+ Done\n"
  | .signaled _ => "\n[" ++ toString w ++ "]+ Killed\n"
  | .stopped _ => "\n[" ++ toString w ++ "]+ Stopped\n"
  | .other => "\n[" ++ toString w ++ "]+ Terminated\n"

/-- Output of the parent's foreground branch of execute_file (shell.c
lines 517-526): after waiting for the specific child, a lone newline when
it was terminated by a signal, and nothing otherwise. -/
def execute_file_fg (st : WStatus) : String :=
  match st with
  | .signaled _ => "\n"
  | _ => ""

/-- SIGCHLD branch of sig_handler (shell.c lines 604-616): one
non-blocking reap; when waitpid returned a pid (w > 0) that is a tracked
job, the job is removed and its status line printed, followed by a fresh
prompt when no command is executing (exec_args clear).  Returns the
resulting job list and the printed text. -/
def sigchld_branch (jobs : List (Int × String)) (w : Int) (st : WStatus)
    (exec_args : Bool) : List (Int × String) × String :=
  if 0 < w then
    let r := jobs_find_remove jobs w
    if r.1 then (r.2, print_status w st ++ if exec_args then "" else "$ ")
    else (jobs, "")
  else (jobs, "")

/-- Control location of the input thread with respect to the handoff
monitor: about to fill the shared argument storage; storage filled but
exec_args not yet raised; exec_args raised (monitor_args_execute done) and
waiting in monitor_args_wait_finished; past that wait and about to run
clear_args. -/
inductive LLoc where
  | ready
  | filled
  | published
  | clearing
deriving DecidableEq

/-- Control location of the exec thread: waiting in
monitor_args_wait_executable; past the wait and about to read the shared
storage in execute_file; done executing and about to run
monitor_args_executed. -/
inductive ELoc where
  | waiting
  | consuming
  | executed
deriving DecidableEq

/-- Joint state of the two threads and the handoff monitor: the commands
not yet submitted, the shared argument storage (none when freed), the
exec_args flag, the two control locations, and the commands consumed by
the exec thread in order. -/
structure MState (α : Type) where
  pending : List α
  buf : Option α
  flag : Bool
  lpc : LLoc
  epc : ELoc
  consumed : List α
deriving DecidableEq

/-- Interleaving semantics of the handoff protocol of shell.c.  Each
constructor is one atomic step of one thread: create_args filling the
shared storage; monitor_args_execute raising exec_args under the mutex;
monitor_args_wait_executable returning, which requires exec_args to be
set; execute_file consuming the storage; monitor_args_executed clearing
exec_args; monitor_args_wait_finished returning, which requires exec_args
to be clear; clear_args freeing the storage.  A waiting thread simply has
no enabled step, and any interleaving of enabled steps is allowed. -/
inductive MStep {α : Type} : MState α → MState α → Prop
  | fill (s : MState α) (c : α) (rest : List α) :
      s.lpc = .ready → s.pending = c :: rest →
      MStep s { s with pending := rest, buf := some c, lpc := .filled }
  | monitor_args_execute (s : MState α) :
      s.lpc = .filled →
      MStep s { s with flag := true, lpc := .published }
  | monitor_args_wait_executable (s : MState α) :
      s.epc = .waiting → s.flag = true →
      MStep s { s with epc := .consuming }
  | consume (s : MState α) (c : α) :
      s.epc = .consuming → s.buf = some c →
      MStep s { s with consumed := s.consumed ++ [c], epc := .executed }
  | monitor_args_executed (s : MState α) :
      s.epc = .executed →
      MStep s { s with flag := false, epc := .waiting }
  | monitor_args_wait_finished (s : MState α) :
      s.lpc = .published → s.flag = false →
      MStep s { s with lpc := .clearing }
  | clear_args (s : MState α) :
      s.lpc = .clearing →
      MStep s { s with buf := none, lpc := .ready }

/-- Initial state: nothing submitted or consumed, storage free, exec_args
clear, both threads at the top of their loops. -/
def minit {α : Type} (script : List α) : MState α :=
  ⟨script, none, false, .ready, .waiting, []⟩

/-- States reachable from the initial state for a given command script. -/
inductive MReach {α : Type} (script : List α) : MState α → Prop
  | init : MReach script (minit script)
  | step {s t : MState α} : MReach script s → MStep s t → MReach script t

/-- Commands currently in flight: submitted to the storage but not yet
consumed.  This is at most one command, and empty from the consuming step
onward. -/
def inflight {α : Type} (s : MState α) : List α :=
  match s.lpc, s.epc, s.buf with
  | .ready, _, _ => []
  | .filled, _, some c => [c]
  | .published, .waiting, some c => if s.flag then [c] else []
  | .published, .consuming, some c => [c]
  | _, _, _ => []

/-- Control invariant of the handoff protocol: the combinations of thread
locations and exec_args that can actually occur, with the storage contents
each requires.  In every combination past the consuming step the storage
still holds the command just consumed, which is therefore the last element
of the consumption history. -/
def MCtl {α : Type} (s : MState α) : Prop :=
  match s.lpc, s.epc, s.flag with
  | .ready, .waiting, false => s.buf = none
  | .filled, .waiting, false => ∃ c, s.buf = some c
  | .published, .waiting, true => ∃ c, s.buf = some c
  | .published, .consuming, true => ∃ c, s.buf = some c
  | .published, .executed, true =>
      ∃ c, s.buf = some c ∧ s.consumed.getLast? = some c
  | .published, .waiting, false =>
      ∃ c, s.buf = some c ∧ s.consumed.getLast? = some c
  | .clearing, .waiting, false =>
      ∃ c, s.buf = some c ∧ s.consumed.getLast? = some c
  | _, _, _ => False

/-- Full protocol invariant: the control invariant, plus the accounting
equation stating that the script splits into the consumed prefix, the
commands in flight and the pending suffix. -/
def MInv {α : Type} (script : List α) (s : MState α) : Prop :=
  MCtl s ∧ s.consumed ++ inflight s ++ s.pending = script

/-- Token-length view of a line: the lengths of its whitespace-delimited
tokens, i being the length of the current partial token.  A whitespace
run contributes zero-length entries, and the final entry is the length of
the last (possibly empty) token; this mirrors the i counter of the first
pass of create_args. -/
def lens (i : Nat) : List Char → List Nat
  | [] => [i]
  | c :: s => if is_space c then i :: lens 0 s else lens (i + 1) s

/-- Accumulating tokenizer; cur holds the reversed bytes of the current
partial token. -/
def toksAux (cur : List Char) : List Char → List (List Char)
  | [] => if cur.isEmpty then [] else [cur.reverse]
  | c :: s =>
    if is_space c then
      if cur.isEmpty then toksAux [] s else cur.reverse :: toksAux [] s
    else toksAux (c :: cur) s

/-- The whitespace-delimited tokens of a line: the specification's notion
of token (argument, redirect token or backgrounding token). -/
def tokensOf (l : List Char) : List (List Char) := toksAux [] l

/-- The bytes of the C string held in the buffer from position p to the
first terminator.  The fuel serves termination only; the wrapper supplies
the buffer size, which bounds every terminator-free run. -/
def cstr_fuel (b : Array Char) : Nat → Nat → List Char
  | 0, _ => []
  | fuel + 1, p =>
    if rd b p = NUL then [] else rd b p :: cstr_fuel b fuel (p + 1)

/-- The C string in the buffer from position p. -/
def cstr (b : Array Char) (p : Nat) : List Char := cstr_fuel b b.size p


/-! Theorems. -/


/-- Reading at or past the buffer size yields the terminator. -/
theorem rd_of_le (b : Array Char) (i : Nat) (h : b.size ≤ i) : rd b i = NUL := by
  unfold rd Array.getD
  rw [dif_neg (Nat.not_lt.mpr h)]

/-- The terminator is not whitespace. -/
theorem is_space_NUL : is_space NUL = false := rfl

/-- Writing does not change the buffer size. -/
theorem wr_size (b : Array Char) (i : Nat) (c : Char) :
    (wr b i c).size = b.size :=
  Array.size_setD b i c

/-- Reading away from the written position sees the old buffer. -/
theorem rd_wr_ne (b : Array Char) (i j : Nat) (c : Char) (h : i ≠ j) :
    rd (wr b i c) j = rd b j := by
  unfold wr Array.setD
  split
  · rename_i hi
    unfold rd Array.getD
    have hs : (b.set ⟨i, hi⟩ c).size = b.size := Array.size_set b ⟨i, hi⟩ c
    split <;> split <;> first
      | (exact Array.getElem_set_ne b ⟨i, hi⟩ c _ h)
      | rfl
      | omega
  · rfl

/-- Reading an in-bounds written position sees the written byte. -/
theorem rd_wr_self (b : Array Char) (i : Nat) (c : Char) (h : i < b.size) :
    rd (wr b i c) i = c := by
  unfold wr Array.setD
  rw [dif_pos h]
  unfold rd Array.getD
  have hs : (b.set ⟨i, h⟩ c).size = b.size := Array.size_set b ⟨i, h⟩ c
  rw [dif_pos (by omega)]
  exact Array.getElem_set_eq b ⟨i, h⟩ c rfl _

/-- The whitespace skip halts at a non-whitespace byte. -/
theorem skip_ws_stop (b : Array Char) (p : Nat)
    (h : is_space (rd b p) = false) : skip_ws b p = p := by
  unfold skip_ws
  cases b.size with
  | zero => rfl
  | succ n => simp [skip_ws_fuel, h]

/-- The fueled whitespace skip over an all-whitespace buffer, with fuel
reaching the size, lands on the terminator position. -/
theorem skip_ws_fuel_all (b : Array Char)
    (hall : ∀ k, k < b.size → is_space (rd b k) = true) :
    ∀ fuel p, b.size ≤ p + fuel → skip_ws_fuel b fuel p = max p b.size := by
  intro fuel
  induction fuel with
  | zero =>
    intro p hp
    have hle : b.size ≤ p := by simpa using hp
    simp [skip_ws_fuel, Nat.max_eq_left hle]
  | succ n ih =>
    intro p hp
    by_cases hlt : p < b.size
    · rw [skip_ws_fuel, if_pos (hall p hlt), ih (p + 1) (by omega)]
      omega
    · have hge : b.size ≤ p := Nat.not_lt.mp hlt
      have hns : is_space (rd b p) = false := by rw [rd_of_le b p hge]; rfl
      simp [skip_ws_fuel, hns, Nat.max_eq_left hge]

/-- Skipping whitespace from the start of an all-whitespace buffer lands
on the terminator position. -/
theorem skip_ws_all (b : Array Char)
    (hall : ∀ k, k < b.size → is_space (rd b k) = true) :
    skip_ws b 0 = b.size := by
  have := skip_ws_fuel_all b hall b.size 0 (by omega)
  simpa [skip_ws] using this

/-- The backward strip over an all-whitespace buffer reaches the buffer
start. -/
theorem strip_end_all (b : Array Char)
    (hall : ∀ k, k < b.size → is_space (rd b k) = true) :
    ∀ q, q < b.size → strip_end b q = 0 := by
  intro q
  induction q with
  | zero => intro hq; simp [strip_end, hall 0 hq]
  | succ n ih =>
    intro hq
    simp [strip_end, hall (n + 1) hq, ih (by omega)]

/-- The counting pass returns its state unchanged at the terminator. -/
theorem pass1_exit (fuel : Nat) (b : Array Char) (ptr bptr i : Nat)
    (argsc : Int) (bg : Bool) (h : rd b ptr = NUL) :
    pass1 fuel b ptr bptr i argsc bg = .ok (b, ptr, bptr, i, argsc, bg) := by
  cases fuel <;> simp [pass1, h]

/-- The filling pass returns its state unchanged at the terminator. -/
theorem pass2_exit (fuel : Nat) (b : Array Char) (ptr bptr j : Nat)
    (acc : List String) (rt rf : String) (h : rd b ptr = NUL) :
    pass2 fuel b ptr bptr j acc rt rf = (bptr, j, acc, rt, rf) := by
  cases fuel <;> simp [pass2, h]
/-- A position holding a byte other than the terminator lies inside the
buffer. -/
theorem rd_lt (b : Array Char) (p : Nat) (h : rd b p ≠ NUL) : p < b.size := by
  by_contra hge
  exact h (rd_of_le b p (Nat.not_lt.mp hge))

/-- The whitespace skip never moves backwards. -/
theorem skip_ws_fuel_ge (b : Array Char) :
    ∀ fuel p, p ≤ skip_ws_fuel b fuel p := by
  intro fuel
  induction fuel with
  | zero => intro p; exact le_rfl
  | succ n ih =>
    intro p
    rw [skip_ws_fuel]
    split
    · exact le_trans (by omega) (ih (p + 1))
    · exact le_rfl

/-- The whitespace skip never moves backwards. -/
theorem skip_ws_ge (b : Array Char) (p : Nat) : p ≤ skip_ws b p :=
  skip_ws_fuel_ge b b.size p

/-- From a whitespace byte, the skip advances at least one position. -/
theorem skip_ws_gt (b : Array Char) (p : Nat)
    (h : is_space (rd b p) = true) : p + 1 ≤ skip_ws b p := by
  have hlt : p < b.size := by
    by_contra hge
    rw [rd_of_le b p (Nat.not_lt.mp hge)] at h
    exact absurd h (by decide)
  unfold skip_ws
  rcases hs : b.size with _ | n
  · omega
  · rw [skip_ws_fuel, if_pos h]
    exact Nat.succ_le_of_lt
      (Nat.lt_of_lt_of_le (Nat.lt_succ_self p) (skip_ws_fuel_ge b n (p + 1)))

/-- The backward strip never lands past its starting point plus one. -/
theorem strip_end_le (b : Array Char) : ∀ q, strip_end b q ≤ q + 1 := by
  intro q
  induction q with
  | zero => rw [strip_end]; split <;> omega
  | succ n ih => rw [strip_end]; split <;> omega

/-- Any two sufficient fuels give the fueled C-string reader the same
result. -/
theorem cstr_fuel_congr (b : Array Char) :
    ∀ f1 f2 p, b.size ≤ p + f1 → b.size ≤ p + f2 →
      cstr_fuel b f1 p = cstr_fuel b f2 p := by
  intro f1
  induction f1 with
  | zero =>
    intro f2 p h1 h2
    have hnul : rd b p = NUL := rd_of_le b p (by omega)
    cases f2 <;> simp [cstr_fuel, hnul]
  | succ n ih =>
    intro f2 p h1 h2
    cases f2 with
    | zero =>
      have hnul : rd b p = NUL := rd_of_le b p (by omega)
      simp [cstr_fuel, hnul]
    | succ m =>
      rw [cstr_fuel, cstr_fuel]
      by_cases hnul : rd b p = NUL
      · simp [hnul]
      · rw [if_neg hnul, if_neg hnul]
        have hlt : p < b.size := rd_lt b p hnul
        rw [ih m (p + 1) (by omega) (by omega)]

/-- The C string at a terminator position is empty. -/
theorem cstr_nil (b : Array Char) (p : Nat) (h : rd b p = NUL) :
    cstr b p = [] := by
  unfold cstr
  cases b.size <;> simp [cstr_fuel, h]

/-- The C string at a non-terminator position starts with that byte. -/
theorem cstr_cons (b : Array Char) (p : Nat) (h : rd b p ≠ NUL) :
    cstr b p = rd b p :: cstr b (p + 1) := by
  have hlt : p < b.size := rd_lt b p h
  unfold cstr
  rcases hs : b.size with _ | n
  · omega
  · rw [cstr_fuel, if_neg h]
    have h2 := cstr_fuel_congr b n (n + 1) (p + 1) (by omega) (by omega)
    rw [h2]

/-- A write strictly below the read position leaves the fueled C-string
reader unchanged. -/
theorem cstr_fuel_wr (b : Array Char) (t : Nat) (c : Char) :
    ∀ fuel p, t < p → cstr_fuel (wr b t c) fuel p = cstr_fuel b fuel p := by
  intro fuel
  induction fuel with
  | zero => intro p ht; rfl
  | succ n ih =>
    intro p ht
    rw [cstr_fuel, cstr_fuel, rd_wr_ne b t p c (by omega)]
    by_cases h : rd b p = NUL
    · simp [h]
    · rw [if_neg h, if_neg h, ih (p + 1) (by omega)]

/-- A write strictly below the read position leaves the C string
unchanged. -/
theorem cstr_wr (b : Array Char) (t : Nat) (c : Char) (p : Nat)
    (ht : t < p) : cstr (wr b t c) p = cstr b p := by
  unfold cstr
  rw [wr_size, cstr_fuel_wr b t c b.size p ht]

/-- An over-long token ahead survives skipping whitespace (fueled
version): the skipped bytes contribute only zero-length entries. -/
theorem lens_long_skip_fuel (b : Array Char) :
    ∀ fuel p, (∃ n ∈ lens 0 (cstr b p), MAXARG ≤ n) →
      ∃ n ∈ lens 0 (cstr b (skip_ws_fuel b fuel p)), MAXARG ≤ n := by
  intro fuel
  induction fuel with
  | zero => intro p h; exact h
  | succ m ih =>
    intro p h
    rw [skip_ws_fuel]
    by_cases hs : is_space (rd b p) = true
    · rw [if_pos hs]
      apply ih
      have hnn : rd b p ≠ NUL := by
        intro hn; rw [hn] at hs; exact absurd hs (by decide)
      rw [cstr_cons b p hnn] at h
      simp only [lens, hs, if_pos] at h
      obtain ⟨n, hn, hge⟩ := h
      rcases List.mem_cons.mp hn with rfl | hn2
      · exact absurd hge (by decide)
      · exact ⟨n, hn2, hge⟩
    · rw [if_neg hs]; exact h

/-- An over-long token ahead survives skipping whitespace. -/
theorem lens_long_skip (b : Array Char) (p : Nat)
    (h : ∃ n ∈ lens 0 (cstr b p), MAXARG ≤ n) :
    ∃ n ∈ lens 0 (cstr b (skip_ws b p)), MAXARG ≤ n :=
  lens_long_skip_fuel b b.size p h

/-- Core lemma for the length bound: whenever the remaining input (the
current partial token of length i plus the rest of the C string at the
scan position) still contains a token of length at least MAXARG, the
counting pass either raises a parse error or exits its loop with a final
token length of at least MAXARG, which create_args then rejects.  The
hypotheses supply sufficient fuel and keep the token start at or before
the scan position, as in every actual call. -/
theorem pass1_long :
    ∀ fuel (b : Array Char) (ptr bptr i : Nat) (argsc : Int) (bg : Bool),
      b.size + 1 ≤ ptr + fuel → bptr ≤ ptr →
      (∃ n ∈ lens i (cstr b ptr), MAXARG ≤ n) →
      (∃ e, pass1 fuel b ptr bptr i argsc bg = .error e) ∨
      (∃ r, pass1 fuel b ptr bptr i argsc bg = .ok r ∧
        MAXARG ≤ r.2.2.2.1) := by
  intro fuel
  induction fuel with
  | zero =>
    intro b ptr bptr i argsc bg hfuel hb hlong
    right
    have hnul : rd b ptr = NUL := rd_of_le b ptr (by omega)
    rw [cstr_nil b ptr hnul] at hlong
    obtain ⟨n, hn, hge⟩ := hlong
    simp [lens] at hn
    exact ⟨(b, ptr, bptr, i, argsc, bg), rfl, hn ▸ hge⟩
  | succ m ih =>
    intro b ptr bptr i argsc bg hfuel hb hlong
    by_cases hnul : rd b ptr = NUL
    · right
      rw [cstr_nil b ptr hnul] at hlong
      obtain ⟨n, hn, hge⟩ := hlong
      simp [lens] at hn
      rw [pass1, if_pos hnul]
      exact ⟨(b, ptr, bptr, i, argsc, bg), rfl, hn ▸ hge⟩
    · have hcons := cstr_cons b ptr hnul
      by_cases hsp : is_space (rd b ptr) = true
      · rw [hcons] at hlong
        simp only [lens, hsp, if_pos] at hlong
        by_cases hlen : MAXARG ≤ i
        · left
          refine ⟨.tooLong, ?_⟩
          rw [pass1, if_neg hnul, if_pos hsp, if_pos hlen]
        · have hlong2 : ∃ n ∈ lens 0 (cstr b (ptr + 1)), MAXARG ≤ n := by
            obtain ⟨n, hn, hge⟩ := hlong
            rcases List.mem_cons.mp hn with rfl | hn2
            · exact absurd hge hlen
            · exact ⟨n, hn2, hge⟩
          have hlong0 : ∃ n ∈ lens 0 (cstr b ptr), MAXARG ≤ n := by
            rw [hcons]
            simp only [lens, hsp, if_pos]
            obtain ⟨n, hn, hge⟩ := hlong2
            exact ⟨n, List.mem_cons_of_mem _ hn, hge⟩
          by_cases hred : rd b bptr = '>' ∨ rd b bptr = '<'
          · by_cases hws : is_space (rd b (bptr + 1)) = true
            · left
              refine ⟨.noWsAfterOp (rd b bptr), ?_⟩
              rw [pass1, if_neg hnul, if_pos hsp, if_neg hlen, if_pos hred,
                if_pos hws]
            · have hskip := lens_long_skip b ptr hlong0
              have hgt := skip_ws_gt b ptr hsp
              have hrec := ih b (skip_ws b ptr) (skip_ws b ptr) 0 argsc bg
                (by omega) le_rfl hskip
              rw [pass1, if_neg hnul, if_pos hsp, if_neg hlen, if_pos hred,
                if_neg hws]
              exact hrec
          · by_cases hamp : rd b bptr = '&'
            · have hblt : bptr < ptr := by
                rcases Nat.lt_or_ge bptr ptr with hlt | hge2
                · exact hlt
                · exfalso
                  have hbe : bptr = ptr := le_antisymm hb hge2
                  rw [hbe] at hamp
                  rw [hamp] at hsp
                  exact absurd hsp (by decide)
              have htlt : (if bptr = 0 then 0 else strip_end b (bptr - 1)) < ptr := by
                split
                · omega
                · have := strip_end_le b (bptr - 1)
                  omega
              have hsp1 : is_space
                  (rd (wr b (if bptr = 0 then 0 else strip_end b (bptr - 1)) NUL) ptr) = true := by
                rw [rd_wr_ne b _ ptr NUL (by omega)]
                exact hsp
              have hlong1 : ∃ n ∈ lens 0
                  (cstr (wr b (if bptr = 0 then 0 else strip_end b (bptr - 1)) NUL)
                    (skip_ws (wr b (if bptr = 0 then 0 else strip_end b (bptr - 1)) NUL) ptr)),
                  MAXARG ≤ n := by
                apply lens_long_skip
                rw [cstr_wr b _ NUL ptr htlt]
                exact hlong0
              have hgt1 := skip_ws_gt _ ptr hsp1
              have hrec := ih (wr b (if bptr = 0 then 0 else strip_end b (bptr - 1)) NUL)
                (skip_ws (wr b (if bptr = 0 then 0 else strip_end b (bptr - 1)) NUL) ptr)
                (skip_ws (wr b (if bptr = 0 then 0 else strip_end b (bptr - 1)) NUL) ptr)
                0 (argsc - 1) true
                (by rw [wr_size]; omega) le_rfl hlong1
              rw [pass1, if_neg hnul, if_pos hsp, if_neg hlen, if_neg hred,
                if_pos hamp]
              exact hrec
            · have hskip := lens_long_skip b ptr hlong0
              have hgt := skip_ws_gt b ptr hsp
              have hrec := ih b (skip_ws b ptr) (skip_ws b ptr) 0 (argsc + 1) bg
                (by omega) le_rfl hskip
              rw [pass1, if_neg hnul, if_pos hsp, if_neg hlen, if_neg hred,
                if_neg hamp]
              exact hrec
      · rw [hcons] at hlong
        simp only [lens, hsp, if_neg] at hlong
        have hrec := ih b (ptr + 1) bptr (i + 1) argsc bg (by omega)
          (by omega) hlong
        rw [pass1, if_neg hnul, if_neg hsp]
        exact hrec

/-- Reading an in-bounds position of the array of a list sees the list
element. -/
theorem rd_toArray (l : List Char) (k : Nat) (hk : k < l.length) :
    rd l.toArray k = l[k] := by
  unfold rd Array.getD
  rw [dif_pos (by simpa using hk)]
  simp [List.getElem_toArray]

/-- Every token's length appears among the token-length entries. -/
theorem toksAux_lens (t : List Char) :
    ∀ (s : List Char) (cur : List Char),
      t ∈ toksAux cur s → t.length ∈ lens cur.length s := by
  intro s
  induction s with
  | nil =>
    intro cur ht
    rw [toksAux] at ht
    by_cases hc : cur.isEmpty
    · simp [hc] at ht
    · rw [if_neg hc] at ht
      simp at ht
      subst ht
      simp [lens]
  | cons c s ih =>
    intro cur ht
    rw [toksAux] at ht
    by_cases hs : is_space c = true
    · rw [if_pos hs] at ht
      simp only [lens, hs, if_pos]
      by_cases hc : cur.isEmpty
      · rw [if_pos hc] at ht
        exact List.mem_cons_of_mem _ (by simpa using ih [] ht)
      · rw [if_neg hc] at ht
        rcases List.mem_cons.mp ht with rfl | ht2
        · simp
        · exact List.mem_cons_of_mem _ (by simpa using ih [] ht2)
    · rw [if_neg hs] at ht
      have hrec := ih (c :: cur) ht
      simp only [lens, hs, if_neg]
      simpa using hrec

/-- Over the array of a terminator-free list, the fueled C-string reader
yields the remaining list. -/
theorem cstr_fuel_toArray (l : List Char) (hnul : ∀ c ∈ l, c ≠ NUL) :
    ∀ fuel p, l.length ≤ p + fuel →
      cstr_fuel l.toArray fuel p = l.drop p := by
  intro fuel
  induction fuel with
  | zero =>
    intro p hp
    rw [cstr_fuel]
    exact (List.drop_eq_nil_of_le (by omega)).symm
  | succ m ih =>
    intro p hp
    by_cases hplt : p < l.length
    · have hrd : rd l.toArray p = l[p] := rd_toArray l p hplt
      have hne : rd l.toArray p ≠ NUL := by
        rw [hrd]; exact hnul _ (List.getElem_mem hplt)
      rw [cstr_fuel, if_neg hne, hrd, ih (p + 1) (by omega)]
      exact (List.drop_eq_getElem_cons hplt).symm
    · have hge : l.length ≤ p := Nat.not_lt.mp hplt
      have hz : rd l.toArray p = NUL := rd_of_le _ _ (by simpa using hge)
      rw [cstr_fuel, if_pos hz]
      exact (List.drop_eq_nil_of_le hge).symm

/-- The C string of the buffer holding a terminator-free line is the line
itself. -/
theorem cstr_toArray (l : List Char) (hnul : ∀ c ∈ l, c ≠ NUL) :
    cstr l.toArray 0 = l := by
  unfold cstr
  have hs : l.toArray.size = l.length := by simp
  rw [hs, cstr_fuel_toArray l hnul l.length 0 (by omega)]
  simp


/-- C2 counterexample: the line `sort < in.txt > out.txt`, with whitespace
between each operator and its path, is rejected by create_args with the
no-whitespace-after-operator error, so the claim that it parses
successfully is false on the code. -/
theorem create_args_spaced_redirect_err :
    create_args "sort < in.txt > out.txt".toList =
      .error (.noWsAfterOp '<') := by
  rfl

/-- C2 (amended): parsing `sort <in.txt >out.txt`, with each redirection
path adjacent to its operator as shell.c requires, succeeds and yields the
argument list ["sort"], output redirect "out.txt", input redirect
"in.txt", and background = false. -/
theorem create_args_adjacent_redirects :
    create_args "sort <in.txt >out.txt".toList =
      .ok ⟨["sort"], 2, "out.txt", "in.txt", false⟩ := by
  rfl

/-- C3 counterexample: parsing `echo >`, where the redirection operator is
the final token of the line, does not return a parse error; create_args
accepts the line and produces the command ["echo"] with an empty output
redirect target, which execute_file then treats as no redirection at
all. -/
theorem create_args_trailing_op_accepted :
    create_args "echo >".toList = .ok ⟨["echo"], 2, "", "", false⟩ := by
  rfl

/-- C3 (amended): the empty-path parse error fires only when the operator
token is followed by whitespace inside the line, as in `echo > `; with the
bare operator as the final token at end of line, as in `echo >`, parsing
succeeds and produces the command ["echo"] with no output redirection. -/
theorem create_args_trailing_op_cases :
    create_args "echo > ".toList = .error (.noWsAfterOp '>') ∧
    create_args "echo >".toList = .ok ⟨["echo"], 2, "", "", false⟩ := by
  exact ⟨rfl, rfl⟩

/-- C6: parsing `sleep 5 &` yields the argument list ["sleep", "5"] with
the background flag set: the trailing `&` token, with the whitespace
before it stripped, raises run_bg and is not counted as an argument. -/
theorem create_args_background_flag :
    create_args "sleep 5 &".toList =
      .ok ⟨["sleep", "5"], 3, "", "", true⟩ := by
  rfl

/-- A pid that occurs in no record of the job list is not found:
jobs_find_remove reports 0 and leaves the list as it was. -/
theorem jobs_find_remove_not_mem (l : List (Int × String)) (pid : Int)
    (h : pid ∉ l.map Prod.fst) : jobs_find_remove l pid = (false, l) := by
  induction l with
  | nil => rfl
  | cons hd tl ih =>
    obtain ⟨p, n⟩ := hd
    simp only [List.map_cons, List.mem_cons, not_or] at h
    simp only [jobs_find_remove, if_neg (Ne.symm h.1), ih h.2]

/-- A record with the given pid makes jobs_find_remove report 1. -/
theorem jobs_find_remove_found (l : List (Int × String)) (pid : Int)
    (name : String) (h : (pid, name) ∈ l) :
    (jobs_find_remove l pid).1 = true := by
  induction l with
  | nil => simp at h
  | cons hd tl ih =>
    obtain ⟨p, n⟩ := hd
    by_cases hp : p = pid
    · simp [jobs_find_remove, hp]
    · rcases List.mem_cons.mp h with h1 | h1
      · injection h1.symm with h2 h3
        exact absurd h2 hp
      · simp [jobs_find_remove, hp, ih h1]

/-- C7: job-registry round trip.  For a pid not yet in the registry,
inserting (name, pid) makes the record the head of the list, so the
enumeration printed by jobs_print includes its `[pid] name` line; removing
that pid afterwards returns 1 (true) and restores the original list, in
which the record is absent, so a second removal for the same pid returns
0 (false) and changes nothing. -/
theorem jobs_round_trip (l : List (Int × String)) (name : String)
    (pid : Int) (h : pid ∉ l.map Prod.fst) :
    (pid, name) ∈ jobs_insert l name pid ∧
    jobs_print (jobs_insert l name pid) =
      "[" ++ toString pid ++ "] " ++ name ++ "\n" ++ jobs_print l ∧
    jobs_find_remove (jobs_insert l name pid) pid = (true, l) ∧
    (pid, name) ∉ l ∧
    jobs_find_remove l pid = (false, l) := by
  refine ⟨List.mem_cons_self _ _, rfl, by simp [jobs_insert, jobs_find_remove], ?_, jobs_find_remove_not_mem l pid h⟩
  intro hmem
  exact h (List.mem_map.mpr ⟨(pid, name), hmem, rfl⟩)

/-- C7 witness: the round trip at the concrete registry [(7, "cat")] with
the new job ("sleep", 5). -/
theorem jobs_round_trip_witness :
    (5, "sleep") ∈ jobs_insert [((7 : Int), "cat")] "sleep" 5 ∧
    jobs_print (jobs_insert [((7 : Int), "cat")] "sleep" 5) =
      "[" ++ toString (5 : Int) ++ "] " ++ "sleep" ++ "\n" ++
        jobs_print [((7 : Int), "cat")] ∧
    jobs_find_remove (jobs_insert [((7 : Int), "cat")] "sleep" 5) 5 =
      (true, [((7 : Int), "cat")]) ∧
    (5, "sleep") ∉ [((7 : Int), "cat")] ∧
    jobs_find_remove [((7 : Int), "cat")] 5 = (false, [((7 : Int), "cat")]) :=
  jobs_round_trip [((7 : Int), "cat")] "sleep" 5 (by decide)


/-- C5: a line consisting only of whitespace (the empty line included)
parses successfully to the command whose sole argument entry is the empty
string — argsc 2 counts that entry and the NULL terminator — and
input_start, seeing `strlen(args[0]) == 0`, treats it as a no-op (redraws
the prompt and continues), not as an error. -/
theorem blank_line_noop (l : List Char) (h : ∀ c ∈ l, is_space c = true) :
    create_args l = .ok ⟨[""], 2, "", "", false⟩ ∧
    input_dispatch (create_args l) = .no_op := by
  have key : create_args l = .ok ⟨[""], 2, "", "", false⟩ := by
    have hall : ∀ k, k < l.toArray.size → is_space (rd l.toArray k) = true := by
      intro k hk
      have hk2 : k < l.length := by simpa using hk
      rw [rd_toArray l k hk2]
      exact h _ (List.getElem_mem hk2)
    have hstart : skip_ws l.toArray 0 = l.toArray.size := skip_ws_all _ hall
    have h1 : pass1 (l.toArray.size + 1) l.toArray l.toArray.size
        l.toArray.size 0 1 false
        = .ok (l.toArray, l.toArray.size, l.toArray.size, 0, 1, false) :=
      pass1_exit _ _ _ _ _ _ _ (rd_of_le _ _ le_rfl)
    cases l with
    | nil => rfl
    | cons c0 l0 =>
      have hpos : 0 < (c0 :: l0).toArray.size := by simp
      have hstrip : strip_end (c0 :: l0).toArray
          ((c0 :: l0).toArray.size - 1) = 0 :=
        strip_end_all _ hall _ (by omega)
      have hrd2 : rd (wr (c0 :: l0).toArray 0 NUL) 0 = NUL :=
        rd_wr_self _ 0 NUL hpos
      have hsw : skip_ws (wr (c0 :: l0).toArray 0 NUL) 0 = 0 :=
        skip_ws_stop _ _ (by rw [hrd2]; rfl)
      have hp2 : pass2 ((wr (c0 :: l0).toArray 0 NUL).size + 1)
          (wr (c0 :: l0).toArray 0 NUL) 0 0 0 [] "" "" = (0, 0, [], "", "") :=
        pass2_exit _ _ _ _ _ _ _ _ hrd2
      have hfill : fill_args (wr (c0 :: l0).toArray 0 NUL) (1 + 1) false =
          ⟨[""], 2, "", "", false⟩ := by
        simp only [fill_args, hsw, hp2]
        rw [hrd2]
        simp [ext]
        decide
      simp only [create_args]
      rw [hstart, h1]
      norm_num [MAXARG]
      have hstrip2 : strip_end (c0 :: l0).toArray l0.length = 0 := by
        simpa using hstrip
      rw [hstrip2]
      simpa using hfill
  exact ⟨key, by rw [key]; rfl⟩

/-- C5 witness: the single-blank line. -/
theorem blank_line_noop_witness :
    create_args [' '] = .ok ⟨[""], 2, "", "", false⟩ ∧
    input_dispatch (create_args [' ']) = .no_op :=
  blank_line_noop [' '] (by decide)

/-- C8 counterexample: a foreground command that exits with the non-zero
status 2 produces no output at all from the parent branch of execute_file
(in particular no `Exit 2` line), and one killed by signal 9 produces only
a bare newline (no `Killed` line), contradicting the claimed foreground
status lines. -/
theorem foreground_exit_nonzero_silent :
    execute_file_fg (.exited 2) = "" ∧ execute_file_fg (.signaled 9) = "\n" :=
  ⟨rfl, rfl⟩

/-- C8 (amended): a foreground command produces no Exit, Done or Killed
status line whatever its status: on any exit code the parent branch of
execute_file prints nothing (so status 0 indeed produces no Exit line),
and on death by signal it prints a single bare newline.  The `Exit <code>`
and `Killed` lines are produced by print_status, which sig_handler invokes
only for reaped background jobs. -/
theorem foreground_and_background_status_lines (c sig : Nat) (w : Int) :
    execute_file_fg (.exited c) = "" ∧
    execute_file_fg (.signaled sig) = "\n" ∧
    (0 < c → print_status w (.exited c) =
      "\n[" ++ toString w ++ "]+ Exit " ++ toString c ++ "\n") ∧
    print_status w (.signaled sig) = "\n[" ++ toString w ++ "]+ Killed\n" := by
  refine ⟨rfl, rfl, ?_, rfl⟩
  intro hc
  simp [print_status, Nat.pos_iff_ne_zero.mp hc]

/-- C8 witness: the amended statement at exit code 2, signal 9, pid 7. -/
theorem foreground_and_background_status_lines_witness :
    print_status 7 (.exited 2) =
      "\n[" ++ toString (7 : Int) ++ "]+ Exit " ++ toString (2 : Nat) ++ "\n" :=
  (foreground_and_background_status_lines 2 9 7).2.2.1 (by decide)

/-- C9 counterexample: for `cd /tmp` (argument count correct), a chdir
failure other than ENOENT/ENOTDIR makes change_cwd return -1 with no
message printed, and the cd branch of input_start treats -1 as fatal: it
sets the exit flag and ends the input thread, terminating the shell —
contradicting the claim that such a failure is reported generically
without terminating the shell. -/
theorem cd_generic_failure_terminates :
    change_cwd ⟨["cd", "/tmp"], 3, "", "", false⟩ .other_err "/" =
      (-1, none, "/") ∧
    cd_branch_terminates (-1) = true :=
  ⟨rfl, rfl⟩

/-- C9 (amended): cd with an argument count other than one reports the
argument-count error, leaves the working directory unchanged, and the
shell continues; a nonexistent directory is reported as no-such-directory
and the shell continues; any other directory-change failure is not
reported by change_cwd at all and makes it return -1, upon which
input_start sets the exit flag and terminates the shell. -/
theorem change_cwd_spec (c : Cmd) (cwd : String) :
    (c.argsc - 1 ≠ 2 → ∀ r, change_cwd c r cwd =
        (1, some "cd: one argument required", cwd) ∧
      cd_branch_terminates (change_cwd c r cwd).1 = false) ∧
    (c.argsc - 1 = 2 → change_cwd c .no_ent cwd =
        (1, some ("cd: " ++ c.argv.getD 1 "" ++ ": No such directory"), cwd) ∧
      cd_branch_terminates (change_cwd c .no_ent cwd).1 = false) ∧
    (c.argsc - 1 = 2 → change_cwd c .other_err cwd = (-1, none, cwd) ∧
      cd_branch_terminates (change_cwd c .other_err cwd).1 = true) := by
  refine ⟨fun h r => ?_, fun h => ?_, fun h => ?_⟩
  · simp [change_cwd, h, cd_branch_terminates]
  · simp [change_cwd, h, cd_branch_terminates]
  · simp [change_cwd, h, cd_branch_terminates]

/-- C9 witness: the amended statement at `cd` with no path argument
(argsc 2: the name and the NULL entry), showing the argument-count error
with the directory unchanged and the shell continuing. -/
theorem change_cwd_spec_witness :
    change_cwd ⟨["cd"], 2, "", "", false⟩ .ok "/home" =
      (1, some "cd: one argument required", "/home") ∧
    cd_branch_terminates
      (change_cwd ⟨["cd"], 2, "", "", false⟩ .ok "/home").1 = false :=
  (change_cwd_spec ⟨["cd"], 2, "", "", false⟩ "/home").1 (by decide) .ok

/-- C10: when sig_handler reaps a terminated child whose pid is a tracked
background job, a zero exit status is reported with a `[pid]+ Done` line
(not silently and not as an Exit line), a stopped child with `Stopped`,
and any other state change with `Terminated`; a fresh prompt follows when
no command is executing. -/
theorem sigchld_background_done_line (jobs : List (Int × String)) (w : Int)
    (name : String) (ex : Bool) (hw : 0 < w) (hm : (w, name) ∈ jobs) :
    (sigchld_branch jobs w (.exited 0) ex).2 =
      "\n[" ++ toString w ++ "]+ Done\n" ++ (if ex then "" else "$ ") ∧
    (∀ sig, (sigchld_branch jobs w (.stopped sig) ex).2 =
      "\n[" ++ toString w ++ "]+ Stopped\n" ++ (if ex then "" else "$ ")) ∧
    (sigchld_branch jobs w .other ex).2 =
      "\n[" ++ toString w ++ "]+ Terminated\n" ++ (if ex then "" else "$ ") := by
  have hf := jobs_find_remove_found jobs w name hm
  refine ⟨?_, fun sig => ?_, ?_⟩ <;>
    simp [sigchld_branch, hw, hf, print_status]

/-- C10 witness: the Done line for the tracked job [(3, "wc")] reaped with
exit status 0 while no command is executing. -/
theorem sigchld_background_done_line_witness :
    (sigchld_branch [((3 : Int), "wc")] 3 (.exited 0) false).2 =
      "\n[" ++ toString (3 : Int) ++ "]+ Done\n" ++
        (if false then "" else "$ ") :=
  (sigchld_background_done_line [((3 : Int), "wc")] 3 "wc" false
    (by decide) (by decide)).1

/-- The initial state satisfies the handoff invariant. -/
theorem minv_init {α : Type} (script : List α) : MInv script (minit script) :=
  ⟨by simp [MCtl, minit], by simp [inflight, minit]⟩

/-- Every step of the handoff protocol preserves the invariant. -/
theorem minv_step {α : Type} (script : List α) {s t : MState α}
    (hinv : MInv script s) (hstep : MStep s t) : MInv script t := by
  obtain ⟨hctl, heq⟩ := hinv
  obtain ⟨p, b, f, l, e, co⟩ := s
  cases hstep with
  | fill c rest hl hp =>
    cases hl; cases hp
    cases e <;> cases f <;> simp_all [MCtl, MInv, inflight]
  | monitor_args_execute hl =>
    cases hl
    cases e <;> cases f <;> simp_all [MCtl, MInv, inflight] <;>
      (obtain ⟨cx, rfl⟩ := hctl; simp_all [MCtl, MInv, inflight])
  | monitor_args_wait_executable he hf =>
    cases he; cases hf
    cases l <;> simp_all [MCtl, MInv, inflight] <;>
      (obtain ⟨cx, rfl⟩ := hctl; simp_all [MCtl, MInv, inflight])
  | consume c he hb =>
    cases he; cases hb
    cases l <;> cases f <;>
      simp_all [MCtl, MInv, inflight, List.getLast?_concat]
  | monitor_args_executed he =>
    cases he
    cases l <;> cases f <;> simp_all [MCtl, MInv, inflight] <;>
      (obtain ⟨cx, rfl, hl2⟩ := hctl; simp_all [MCtl, MInv, inflight])
  | monitor_args_wait_finished hl hf =>
    cases hl; cases hf
    cases e <;> simp_all [MCtl, MInv, inflight] <;>
      (obtain ⟨cx, rfl, hl2⟩ := hctl; simp_all [MCtl, MInv, inflight])
  | clear_args hl =>
    cases hl
    cases e <;> cases f <;> simp_all [MCtl, MInv, inflight]

/-- Every reachable state of the handoff protocol satisfies the
invariant. -/
theorem minv_reach {α : Type} (script : List α) {s : MState α}
    (h : MReach script s) : MInv script s := by
  induction h with
  | init => exact minv_init script
  | step hr hs ih => exact minv_step script ih hs

/-- C1: safety of the handoff monitor under every interleaving.  In every
reachable state, the consumption history of the exec thread is exactly a
prefix of the submission order — so no command is skipped, duplicated or
reordered, and each is consumed at most once, exactly once when the
protocol returns to rest with nothing pending.  The exec thread reads the
shared storage only when it holds a fully published command, and whenever
the input thread is about to run clear_args (and likewise when it is back
at the top of its loop, about to reuse the storage), the command in the
storage has already been consumed and the exec thread has signalled
completion by clearing exec_args. -/
theorem handoff_exactly_once_in_order {α : Type} (script : List α)
    (s : MState α) (h : MReach script s) :
    s.consumed = script.take s.consumed.length ∧
    (s.lpc = .clearing →
      ∃ c, s.buf = some c ∧ s.consumed.getLast? = some c) ∧
    (s.epc = .consuming → ∃ c, s.buf = some c) ∧
    (s.lpc = .ready → s.buf = none ∧ s.epc = .waiting ∧ s.flag = false ∧
      (s.pending = [] → s.consumed = script)) := by
  obtain ⟨hctl, heq⟩ := minv_reach script h
  obtain ⟨p, b, f, l, e, co⟩ := s
  refine ⟨?_, ?_, ?_, ?_⟩
  · rw [← heq, List.append_assoc]
    exact (List.take_left co _).symm
  · intro hl; cases hl
    cases e <;> cases f <;> simp [MCtl] at hctl
    simpa using hctl
  · intro he; cases he
    cases l <;> cases f <;> simp [MCtl] at hctl
    simpa using hctl
  · intro hl; cases hl
    cases e <;> cases f <;> simp [MCtl] at hctl
    refine ⟨hctl, rfl, rfl, fun hp => ?_⟩
    subst hp
    simp only [inflight] at heq
    simpa using heq

/-- C1 witness: a full run of the protocol on the one-command script
["a"], stepping through all seven transitions and applying the safety
theorem at the final state, where the single command has been consumed. -/
theorem handoff_exactly_once_in_order_witness :
    (⟨[], none, false, LLoc.ready, ELoc.waiting, ["a"]⟩ :
      MState String).consumed = ["a"] := by
  have r1 : MReach ["a"]
      (⟨[], some "a", false, .filled, .waiting, []⟩ : MState String) :=
    MReach.init.step (MStep.fill _ "a" [] rfl rfl)
  have r2 : MReach ["a"]
      (⟨[], some "a", true, .published, .waiting, []⟩ : MState String) :=
    r1.step (MStep.monitor_args_execute _ rfl)
  have r3 : MReach ["a"]
      (⟨[], some "a", true, .published, .consuming, []⟩ : MState String) :=
    r2.step (MStep.monitor_args_wait_executable _ rfl rfl)
  have r4 : MReach ["a"]
      (⟨[], some "a", true, .published, .executed, ["a"]⟩ : MState String) :=
    r3.step (MStep.consume _ "a" rfl rfl)
  have r5 : MReach ["a"]
      (⟨[], some "a", false, .published, .waiting, ["a"]⟩ : MState String) :=
    r4.step (MStep.monitor_args_executed _ rfl)
  have r6 : MReach ["a"]
      (⟨[], some "a", false, .clearing, .waiting, ["a"]⟩ : MState String) :=
    r5.step (MStep.monitor_args_wait_finished _ rfl rfl)
  have r7 : MReach ["a"]
      (⟨[], none, false, .ready, .waiting, ["a"]⟩ : MState String) :=
    r6.step (MStep.clear_args _ rfl)
  exact ((handoff_exactly_once_in_order ["a"] _ r7).2.2.2 rfl).2.2.2 rfl

/-- C4: any input line (terminator-free, as every line read by
input_start is) containing a token — argument, redirect token or
backgrounding token — of length at or beyond MAXARG (256 bytes) is
rejected by create_args with a parse error: the whole line is refused and
no Command, partial or truncated, is ever produced. -/
theorem long_token_rejected (l : List Char) (hnul : ∀ c ∈ l, c ≠ NUL)
    (hlong : ∃ t ∈ tokensOf l, MAXARG ≤ t.length) :
    ∃ e, create_args l = .error e := by
  obtain ⟨t, ht, hge⟩ := hlong
  have h1 : t.length ∈ lens 0 l := by simpa using toksAux_lens t l [] ht
  have h2 : ∃ n ∈ lens 0 (cstr l.toArray 0), MAXARG ≤ n := by
    rw [cstr_toArray l hnul]
    exact ⟨t.length, h1, hge⟩
  have h3 := lens_long_skip l.toArray 0 h2
  have hge0 := skip_ws_ge l.toArray 0
  have key := pass1_long (l.toArray.size + 1) l.toArray
    (skip_ws l.toArray 0) (skip_ws l.toArray 0) 0 1 false
    (by omega) le_rfl h3
  rcases key with ⟨e, he⟩ | ⟨r, hok, hge2⟩
  · refine ⟨e, ?_⟩
    simp only [create_args]
    rw [he]
  · refine ⟨.tooLong, ?_⟩
    simp only [create_args]
    rw [hok]
    obtain ⟨b2, p2, bp2, i2, a2, g2⟩ := r
    simp only at hge2
    simp [hge2]

set_option maxRecDepth 4000 in
/-- C4 witness: a line that is one single token of 256 bytes. -/
theorem long_token_rejected_witness :
    ∃ e, create_args (List.replicate 256 'a') = .error e :=
  long_token_rejected (List.replicate 256 'a')
    (by
      intro c hc
      rw [List.eq_of_mem_replicate hc]
      decide)
    (by decide)

end Shell
